import Mathlib

/-
  Verification of the crossword constraint-satisfaction solver
  (src/CS50AI_TS/PSET7/crossword/generate.py).

  The solver's state is a per-variable domain of candidate words.  Words are
  modelled as lists of characters; Python's `word[i]` is modelled as
  `List.get?`, which is `some` exactly when the index is in bounds.  Domains
  are modelled as functions from variables to lists of words (Python uses a
  dict of sets keyed by the puzzle's variables; list membership plays the
  role of set membership).  The mutable solver state is threaded explicitly.
-/

namespace CrosswordCSP

abbrev Word := List Char

/-- Modelled from the spec: a crossword slot from the external puzzle
structure (class `Variable` of crossword.py, which is not part of the
sources): start row, start column, direction (ACROSS or DOWN) and length. -/
structure Slot where
  row : Nat
  col : Nat
  down : Bool
  len : Nat
deriving DecidableEq, Repr

/-- Modelled from the spec: the external puzzle-structure collaborator
(class `Crossword` of crossword.py, not part of the sources).  It supplies
the variables, the word list, and the read-only overlap map recording, for
each pair of intersecting slots, the (index-in-x, index-in-y) character
position where they must agree. -/
structure Puzzle where
  vars : List Slot
  words : List Word
  overlaps : Slot → Slot → Option (Nat × Nat)

/-- Modelled from the spec: well-formedness of the puzzle structure, as the
spec describes the overlap map: it is defined on pairs of distinct slots,
it is symmetric (an unordered pair is recorded once, read in both orders),
and the recorded positions are character positions inside each slot. -/
def overlapOk (c : Puzzle) (x y : Slot) : Bool := -- symmetric and in range
  match c.overlaps x y with
  | none => true
  | some (i, j) =>
      c.overlaps y x == some (j, i) && decide (i < x.len) && decide (j < y.len)

def Puzzle.WF (c : Puzzle) : Prop :=
  c.vars.Nodup ∧
  ∀ x ∈ c.vars, ∀ y ∈ c.vars,
    (x = y → c.overlaps x y = none) ∧ overlapOk c x y = true

instance (c : Puzzle) : Decidable c.WF := by
  unfold Puzzle.WF
  infer_instance

/-- Modelled from the spec: `neighbors(var)` of the puzzle structure —
the variables sharing an overlap with `var`. -/
def neighbors (c : Puzzle) (x : Slot) : List Slot :=
  c.vars.filter (fun y => y != x && (c.overlaps x y).isSome)

/-- Per-variable domains of candidate words (the solver's `self.domains`). -/
abbrev Domains (_c : Puzzle) := Slot → List Word

/-- Pointwise update of the domain store at one variable. -/
def updateD {c : Puzzle} (d : Domains c) (x : Slot) (ws : List Word) :
    Domains c :=
  fun v => if v = x then ws else d v

/-- Initial domains: every variable's domain is a copy of the word list
(`__init__` of CrosswordCreator). -/
def initialDomains (c : Puzzle) : Domains c := fun _ => c.words

/-- `enforce_node_consistency`: for each puzzle variable, keep only the
words whose length equals the variable's length. -/
def enforceNodeConsistency (c : Puzzle) (d : Domains c) : Domains c :=
  fun v =>
    if v ∈ c.vars then (d v).filter (fun w => w.length == v.len)
    else d v

/-- The support test of `revise`: word `wx` has a supporting word in the
list `dy` at overlap positions `(i, j)` (Python:
`any(word_x[i] == word_y[j] for word_y in self.domains[y])`).  This total
version models the executions that return; the checked variant
`hasSupportE` below models the IndexError raised on an out-of-bounds
index, and the two agree whenever the indices are in range. -/
def hasSupport (dy : List Word) (i j : Nat) (wx : Word) : Bool :=
  dy.any (fun wy => decide (wx.get? i = wy.get? j))

/-- `revise(x, y)`: if x and y overlap at positions (i, j), remove from x's
domain every word with no supporting word in y's domain; return whether any
word was removed, together with the resulting domain store (the store is
unchanged exactly when nothing was removed).  Like `hasSupport`, this
models returning executions; `reviseE` below is the checked variant whose
`none` is the IndexError the source raises on too-short words. -/
def revise (c : Puzzle) (x y : Slot) (d : Domains c) :
    Bool × Domains c :=
  match c.overlaps x y with
  | none => (false, d)
  | some (i, j) =>
      if ((d x).filter (hasSupport (d y) i j)).length = (d x).length then
        (false, d)
      else (true, updateD d x ((d x).filter (hasSupport (d y) i j)))

/-- The default worklist of `ac3`: all ordered arcs (x, y) with y a
neighbor of x. -/
def defaultArcs (c : Puzzle) : List (Slot × Slot) :=
  c.vars.flatMap (fun x => (neighbors c x).map (fun y => (x, y)))

/-- One run of the AC-3 worklist loop of `ac3`, with explicit fuel.  Arcs
are popped from the front and re-enqueued arcs are appended at the back
(first-in-first-out).  `none` means the fuel ran out (never happens for
the fuel bound proved below). -/
def ac3Go (c : Puzzle) : Nat → List (Slot × Slot) → Domains c →
    Option (Bool × Domains c)
  | 0, _, _ => none
  | _ + 1, [], d => some (true, d)
  | fuel + 1, (x, y) :: rest, d =>
      let r := revise c x y d
      if r.1 then
        if (r.2 x).isEmpty then some (false, r.2)
        else
          ac3Go c fuel
            (rest ++ ((neighbors c x).filter (fun z => z != y)).map
              (fun z => (z, x))) r.2
      else ac3Go c fuel rest r.2

/-- Total number of candidate words over the puzzle's variables; the
termination measure of AC-3 combines it with the worklist length. -/
def totalSize (c : Puzzle) (d : Domains c) : Nat :=
  (c.vars.map (fun v => (d v).length)).sum

/-- Fuel sufficient for `ac3Go` to drain its worklist. -/
def ac3Fuel (c : Puzzle) (q : List (Slot × Slot)) (d : Domains c) : Nat :=
  q.length + (c.vars.length + 1) * totalSize c d + 1

/-- `ac3(arcs)`: run the worklist loop on the given initial worklist. -/
def ac3 (c : Puzzle) (arcs : List (Slot × Slot)) (d : Domains c) :
    Option (Bool × Domains c) :=
  ac3Go c (ac3Fuel c arcs d) arcs d

/-- `ac3()` with the default worklist of all arcs. -/
def ac3Default (c : Puzzle) (d : Domains c) : Option (Bool × Domains c) :=
  ac3 c (defaultArcs c) d

/-- Arc (x, y) is arc-consistent in `d`: every word of x's domain has a
supporting word in y's domain (trivially true without an overlap). -/
def arcConsB (c : Puzzle) (d : Domains c) (x y : Slot) : Bool :=
  match c.overlaps x y with
  | none => true
  | some (i, j) => (d x).all (hasSupport (d y) i j)

/-- A partial assignment of words to slots.  Python uses a dict built by
inserting fresh keys and popping them on backtrack; it is modelled as an
association list in insertion order, queried by first match. -/
abbrev Assignment := List (Slot × Word)

/-- `var in assignment` / `assignment[var]` on the dict. -/
def lookupA (a : Assignment) (v : Slot) : Option Word :=
  match a with
  | [] => none
  | (u, w) :: rest => if u = v then some w else lookupA rest v

/-- `assignment.pop(var)`: remove the binding of `v`. -/
def popA (a : Assignment) (v : Slot) : Assignment :=
  a.filter (fun p => p.1 != v)

/-- `assignment_complete`: every puzzle variable is assigned. -/
def assignmentComplete (c : Puzzle) (a : Assignment) : Bool :=
  c.vars.all (fun v => (lookupA a v).isSome)

/-- The inner neighbor loop of `consistent` for variable `v` bound to `w`:
for each assigned neighbor, compare the characters at the recorded overlap
positions.  `none` models a raised exception (an out-of-range character
index, or an overlap entry that cannot be unpacked); `some false` a
detected conflict. -/
def checkNeighbors (c : Puzzle) (a : Assignment) (v : Slot) (w : Word) :
    List Slot → Option Bool
  | [] => some true
  | nb :: rest =>
      match lookupA a nb with
      | none => checkNeighbors c a v w rest
      | some wnb =>
          match c.overlaps v nb with
          | none => none
          | some (i, j) =>
              match w.get? i, wnb.get? j with
              | some ch1, some ch2 =>
                  if ch1 ≠ ch2 then some false
                  else checkNeighbors c a v w rest
              | _, _ => none

/-- The main loop of `consistent`: scan the puzzle variables in order,
skipping unassigned ones; reject a wrong-length word, an overlap conflict
with an assigned neighbor, or a word already used by an earlier variable
(the `assigned_words` set is the accumulator `seen`). -/
def consistentGo (c : Puzzle) (a : Assignment) :
    List Slot → List Word → Option Bool
  | [], _ => some true
  | v :: rest, seen =>
      match lookupA a v with
      | none => consistentGo c a rest seen
      | some w =>
          if w.length ≠ v.len then some false
          else
            match checkNeighbors c a v w (neighbors c v) with
            | none => none
            | some false => some false
            | some true =>
                if w ∈ seen then some false
                else consistentGo c a rest (w :: seen)

/-- `consistent(assignment)`: `some b` is the boolean the Python function
returns; `none` models a raised exception. -/
def consistent (c : Puzzle) (a : Assignment) : Option Bool :=
  consistentGo c a c.vars []

/-- The least-constraining-value key of `order_domain_values`: the number
of neighbors of `x` whose domain contains the word. -/
def lcvKey (c : Puzzle) (d : Domains c) (x : Slot) (w : Word) : Nat :=
  ((neighbors c x).filter (fun nb => w ∈ d nb)).length

/-- Stable insertion into a list sorted by ascending key: the new word
goes before the first strictly greater key, after equal keys. -/
def insertByKey (key : Word → Nat) (w : Word) : List Word → List Word
  | [] => [w]
  | v :: rest =>
      if key w ≤ key v then w :: v :: rest else v :: insertByKey key w rest

/-- Stable sort by ascending key (insertion sort), modelling Python's
stable `sorted(..., key=...)`. -/
def sortByKey (key : Word → Nat) : List Word → List Word
  | [] => []
  | w :: rest => insertByKey key w (sortByKey key rest)

/-- `order_domain_values`: the domain of `x` sorted (stably) by ascending
least-constraining-value key. -/
def orderDomainValues (c : Puzzle) (d : Domains c) (x : Slot) :
    List Word :=
  sortByKey (lcvKey c d x) (d x)

/-- `select_unassigned_variable`: of the unassigned variables, the first
one with the fewest remaining domain values (Python's `min` returns the
first minimum).  `none` only when every variable is assigned (where Python
`min` would raise on an empty sequence; the solver never reaches this). -/
def selectUnassigned (c : Puzzle) (d : Domains c) (a : Assignment) :
    Option Slot :=
  match c.vars.filter (fun v => (lookupA a v).isNone) with
  | [] => none
  | v :: rest =>
      some (rest.foldl (fun best u =>
        if (d u).length < (d best).length then u else best) v)

/-- The value loop of `backtrack` for the selected variable `var`: bind
each candidate in turn, keep the binding exactly while the consistency
check passes and the recursive call (the parameter `bt`) is truthy, and
pop it otherwise.  Returns the Python return value together with the
assignment state at return. -/
def tryValues (c : Puzzle) (bt : Assignment → Option Assignment × Assignment)
    (x : Slot) :
    List Word → Assignment → Option Assignment × Assignment
  | [], a => (none, a)
  | w :: rest, a =>
      if consistent c (a ++ [(x, w)]) = some true then
        match bt (a ++ [(x, w)]) with
        | (some r, s) =>
            if r.isEmpty then tryValues c bt x rest (popA s x)
            else (some r, s)
        | (none, s) => tryValues c bt x rest (popA s x)
      else tryValues c bt x rest (popA (a ++ [(x, w)]) x)

/-- `backtrack(assignment)` with explicit recursion depth (the Python
recursion is bounded by the number of variables, since every nested call
has one more variable assigned).  Returns the Python return value — the
completed assignment, or `none` for Python's `None` — together with the
assignment state at return. -/
def backtrackGo (c : Puzzle) (d : Domains c) :
    Nat → Assignment → Option Assignment × Assignment
  | 0, a => (none, a)
  | fuel + 1, a =>
      if assignmentComplete c a then (some a, a)
      else
        match selectUnassigned c d a with
        | none => (none, a)
        | some x =>
            tryValues c (backtrackGo c d fuel) x (orderDomainValues c d x) a

/-- `backtrack` at depth budget `|variables| + 1`, enough for the
recursion to complete. -/
def backtrack (c : Puzzle) (d : Domains c) (a : Assignment) :
    Option Assignment × Assignment :=
  backtrackGo c d (c.vars.length + 1) a

/-- `solve()`: node consistency, then `ac3()` (its boolean result is
discarded, but its pruning of the domain store is kept), then
`backtrack({})`. -/
def solve (c : Puzzle) : Option Assignment :=
  let d1 := enforceNodeConsistency c (initialDomains c)
  match ac3Default c d1 with
  | none => none
  | some (_, d2) => (backtrack c d2 []).1

/-- `solve()` instrumented with a flag recording whether `backtrack` was
invoked: the source calls `self.backtrack({})` unconditionally after
`self.ac3()`, so the flag is true whenever the AC-3 loop returns. -/
def solveTraced (c : Puzzle) : Option Assignment × Bool :=
  let d1 := enforceNodeConsistency c (initialDomains c)
  match ac3Default c d1 with
  | none => (none, false)
  | some (_, d2) => ((backtrack c d2 []).1, true)

/-! Concrete puzzles used to exercise the definitions. -/

/-- A length-2 across slot. -/
def xAcross : Slot := ⟨0, 0, false, 2⟩

/-- A length-2 down slot crossing `xAcross`: its first character is the
second character of `xAcross`. -/
def yDown : Slot := ⟨0, 1, true, 2⟩

/-- A solvable two-slot puzzle with words "ab" and "bc". -/
def pSolve : Puzzle where
  vars := [xAcross, yDown]
  words := [['a', 'b'], ['b', 'c']]
  overlaps := fun u v =>
    if u = xAcross ∧ v = yDown then some (1, 0)
    else if u = yDown ∧ v = xAcross then some (0, 1)
    else none

/-- A length-1 across slot. -/
def aOne : Slot := ⟨0, 0, false, 1⟩

/-- A length-2 down slot crossing `aOne` at its second character. -/
def bTwo : Slot := ⟨0, 0, true, 2⟩

/-- An unsolvable two-slot puzzle: the only length-1 word is "a", the only
length-2 word is "bc", and the overlap demands "a"[0] = "bc"[1]. -/
def pFail : Puzzle where
  vars := [aOne, bTwo]
  words := [['a'], ['b', 'c']]
  overlaps := fun u v =>
    if u = aOne ∧ v = bTwo then some (0, 1)
    else if u = bTwo ∧ v = aOne then some (1, 0)
    else none

/-- A domain store for `pFail` in which `aOne`'s domain is already empty. -/
def dFail : Domains pFail := fun v => if v = aOne then [] else [['b', 'c']]

/-- A far-away length-1 slot that overlaps nothing. -/
def zFar : Slot := ⟨5, 5, false, 1⟩

/-- A puzzle with two slots and no overlap at all. -/
def pNoOverlap : Puzzle where
  vars := [aOne, zFar]
  words := [['a']]
  overlaps := fun _ _ => none

/-- The assignment the solver finds for `pSolve`. -/
def solvedA : Assignment := [(xAcross, ['a', 'b']), (yDown, ['b', 'c'])]

/-!  Checked (exception-aware) variants of the propagation step.  Python's
`word_x[i] == word_y[j]` raises IndexError when an index is out of bounds;
`hasSupport`/`revise` above model only the executions that return.  The
definitions below return `none` for a raised exception, mirroring the
generator's left-to-right, short-circuiting evaluation on our list order. -/

/-- Checked support test: scan `dy`, comparing characters; `some true` on
the first match, `some false` when the list is exhausted (an empty `dy`
raises nothing, since the generator body is never evaluated), and `none`
as soon as a comparison would index out of bounds. -/
def hasSupportE (i j : Nat) (wx : Word) : List Word → Option Bool
  | [] => some false
  | wy :: rest =>
      match wx.get? i, wy.get? j with
      | some a, some b =>
          if a = b then some true else hasSupportE i j wx rest
      | _, _ => none

/-- Checked removal loop of `revise`: walk x's domain, dropping words
without support and recording whether any word was removed; `none`
propagates a raised comparison. -/
def reviseGoE (dy : List Word) (i j : Nat) :
    List Word → Option (Bool × List Word)
  | [] => some (false, [])
  | wx :: rest =>
      match hasSupportE i j wx dy with
      | none => none
      | some true =>
          match reviseGoE dy i j rest with
          | none => none
          | some (r, kept) => some (r, wx :: kept)
      | some false =>
          match reviseGoE dy i j rest with
          | none => none
          | some (_, kept) => some (true, kept)

/-- Checked `revise(x, y)`: `none` models the IndexError that the source
raises on a store whose words are too short for the recorded overlap
positions; otherwise it agrees with `revise`. -/
def reviseE (c : Puzzle) (x y : Slot) (d : Domains c) :
    Option (Bool × Domains c) :=
  match c.overlaps x y with
  | none => some (false, d)
  | some (i, j) =>
      match reviseGoE (d y) i j (d x) with
      | none => none
      | some (r, kept) =>
          some (if r then (true, updateD d x kept) else (false, d))

/-- Outcome of a checked AC-3 run: a raised exception, or the returned
boolean with the final domain store. -/
inductive Ac3Out (c : Puzzle) where
  | err : Ac3Out c
  | done : Bool → Domains c → Ac3Out c

/-- Checked AC-3 worklist loop: as `ac3Go`, but a raised comparison inside
`revise` aborts the whole run (`some Ac3Out.err`); `none` is fuel
exhaustion. -/
def ac3GoE (c : Puzzle) : Nat → List (Slot × Slot) → Domains c →
    Option (Ac3Out c)
  | 0, _, _ => none
  | _ + 1, [], d => some (.done true d)
  | fuel + 1, (x, y) :: rest, d =>
      match reviseE c x y d with
      | none => some .err
      | some r =>
          if r.1 then
            if (r.2 x).isEmpty then some (.done false r.2)
            else
              ac3GoE c fuel
                (rest ++ ((neighbors c x).filter (fun z => z != y)).map
                  (fun z => (z, x))) r.2
          else ac3GoE c fuel rest r.2

/-- Checked `ac3(arcs)` with the same fuel as `ac3`. -/
def ac3E (c : Puzzle) (arcs : List (Slot × Slot)) (d : Domains c) :
    Option (Ac3Out c) :=
  ac3GoE c (ac3Fuel c arcs d) arcs d

/-- Both overlap positions of the pair (x, y) are inside every word of the
respective current domains, so no comparison between them can raise. -/
def inRangeOk (c : Puzzle) (d : Domains c) (x y : Slot) : Bool :=
  match c.overlaps x y with
  | none => true
  | some (i, j) =>
      (d x).all (fun w => decide (i < w.length)) &&
      (d y).all (fun w => decide (j < w.length))

/-- A domain store on which no arc between puzzle variables can raise:
for example, any node-consistent store of a well-formed puzzle. -/
def InRangeD (c : Puzzle) (d : Domains c) : Prop :=
  ∀ x ∈ c.vars, ∀ y ∈ c.vars, inRangeOk c d x y = true

instance (c : Puzzle) (d : Domains c) : Decidable (InRangeD c d) := by
  unfold InRangeD
  infer_instance

/-- A store for `pSolve` whose word for `xAcross` is too short for the
recorded overlap position 1: the source's `ac3` raises IndexError on it. -/
def dShort : Domains pSolve :=
  fun v => if v = xAcross then [['a']] else [['b', 'c']]

/-! Lemmas about `revise`. -/

theorem revise_of_no_overlap {c : Puzzle} {x y : Slot} (d : Domains c)
    (h : c.overlaps x y = none) : revise c x y d = (false, d) := by
  simp [revise, h]

theorem revise_snd_x {c : Puzzle} {x y : Slot} (d : Domains c) {i j : Nat}
    (h : c.overlaps x y = some (i, j)) :
    (revise c x y d).2 x = (d x).filter (hasSupport (d y) i j) := by
  simp only [revise, h]
  split
  · next hl => exact (List.Sublist.eq_of_length (List.filter_sublist _) hl).symm
  · simp [updateD]

theorem revise_snd_ne {c : Puzzle} {x y : Slot} (d : Domains c) {v : Slot}
    (hv : v ≠ x) : (revise c x y d).2 v = d v := by
  unfold revise
  split
  · rfl
  · split
    · rfl
    · simp [updateD, hv]

theorem revise_snd_subset {c : Puzzle} (x y : Slot) (d : Domains c)
    (v : Slot) : (revise c x y d).2 v ⊆ d v := by
  by_cases hv : v = x
  · subst hv
    unfold revise
    split
    · exact fun w hw => hw
    · split
      · exact fun w hw => hw
      · simp only [updateD, if_pos rfl]
        exact fun w hw => List.filter_subset' _ hw
  · rw [revise_snd_ne d hv]
    exact List.Subset.refl _

theorem revise_fst_false {c : Puzzle} {x y : Slot} {d : Domains c}
    (h : (revise c x y d).1 = false) : (revise c x y d).2 = d := by
  unfold revise at h ⊢
  split at h
  · rfl
  · split at h
    · next hl => simp [hl]
    · simp at h

theorem revise_fst_true_length {c : Puzzle} {x y : Slot} {d : Domains c}
    (h : (revise c x y d).1 = true) :
    ((revise c x y d).2 x).length < (d x).length := by
  unfold revise at h ⊢
  split at h
  · simp at h
  · next i j heq =>
    split at h
    · simp at h
    · next hl =>
      simp only [hl, if_false, updateD, if_pos rfl]
      exact lt_of_le_of_ne (List.length_filter_le _ _) hl

theorem revise_fst_true_iff {c : Puzzle} {x y : Slot} {d : Domains c}
    {i j : Nat} (h : c.overlaps x y = some (i, j)) :
    (revise c x y d).1 = true ↔ ∃ w ∈ d x, w ∉ (revise c x y d).2 x := by
  rw [revise_snd_x d h]
  simp only [revise, h]
  constructor
  · intro ht
    split at ht
    · simp at ht
    · next hl =>
      by_contra hno
      push_neg at hno
      have hself : (d x).filter (hasSupport (d y) i j) = d x :=
        List.filter_eq_self.mpr (fun w hw => List.of_mem_filter (hno w hw))
      exact hl (by rw [hself])
  · rintro ⟨w, hw, hnw⟩
    split
    · next hl =>
      apply absurd _ hnw
      rw [List.Sublist.eq_of_length (List.filter_sublist _) hl]
      exact hw
    · rfl

/-- C4: after `revise(x, y)` returns for overlapping variables x and y,
every word remaining in x's domain has at least one word in y's domain
agreeing with it at the overlap character positions, and `revise` returns
true if and only if it removed at least one word from x's domain. -/
theorem C4_revise_sound (c : Puzzle) (x y : Slot) (d : Domains c)
    (i j : Nat) (hov : c.overlaps x y = some (i, j)) (hxy : x ≠ y) :
    (∀ wx ∈ (revise c x y d).2 x, ∃ wy ∈ (revise c x y d).2 y,
        wx.get? i = wy.get? j) ∧
    ((revise c x y d).1 = true ↔ ∃ w ∈ d x, w ∉ (revise c x y d).2 x) := by
  constructor
  · intro wx hwx
    rw [revise_snd_x d hov] at hwx
    rw [revise_snd_ne d (Ne.symm hxy)]
    have := List.of_mem_filter hwx
    rcases List.any_eq_true.mp this with ⟨wy, hwy, heq⟩
    exact ⟨wy, hwy, of_decide_eq_true heq⟩
  · exact revise_fst_true_iff hov

/-- Witness for C4: the overlap hypotheses hold for the concrete puzzle
`pSolve` and the theorem applies there. -/
theorem C4_revise_sound_witness :
    (pSolve.overlaps xAcross yDown = some (1, 0) ∧ xAcross ≠ yDown) ∧
    ((∀ wx ∈ (revise pSolve xAcross yDown (initialDomains pSolve)).2 xAcross,
        ∃ wy ∈ (revise pSolve xAcross yDown (initialDomains pSolve)).2 yDown,
          wx.get? 1 = wy.get? 0) ∧
      ((revise pSolve xAcross yDown (initialDomains pSolve)).1 = true ↔
        ∃ w ∈ initialDomains pSolve xAcross,
          w ∉ (revise pSolve xAcross yDown (initialDomains pSolve)).2 xAcross)) :=
  ⟨⟨by decide, by decide⟩,
    C4_revise_sound pSolve xAcross yDown (initialDomains pSolve) 1 0
      (by decide) (by decide)⟩

/-- C7: for variables x and y with no recorded overlap, `revise(x, y)`
returns false and leaves every variable's domain unchanged. -/
theorem C7_revise_no_overlap (c : Puzzle) (x y : Slot) (d : Domains c)
    (h : c.overlaps x y = none) :
    (revise c x y d).1 = false ∧ ∀ v, (revise c x y d).2 v = d v := by
  rw [revise_of_no_overlap d h]
  exact ⟨rfl, fun _ => rfl⟩

/-- Witness for C7: the two slots of `pNoOverlap` do not overlap and the
theorem applies to them. -/
theorem C7_revise_no_overlap_witness :
    pNoOverlap.overlaps aOne zFar = none ∧
    ((revise pNoOverlap aOne zFar (initialDomains pNoOverlap)).1 = false ∧
      ∀ v, (revise pNoOverlap aOne zFar (initialDomains pNoOverlap)).2 v =
        initialDomains pNoOverlap v) :=
  ⟨rfl, C7_revise_no_overlap pNoOverlap aOne zFar (initialDomains pNoOverlap)
    rfl⟩

/-! Lemmas about `enforce_node_consistency`, monotonicity and AC-3. -/

theorem enc_subset (c : Puzzle) (d : Domains c) (v : Slot) :
    enforceNodeConsistency c d v ⊆ d v := by
  unfold enforceNodeConsistency
  split
  · exact List.filter_subset' _
  · exact List.Subset.refl _

theorem mem_neighbors {c : Puzzle} {x z : Slot} :
    z ∈ neighbors c x ↔ z ∈ c.vars ∧ z ≠ x ∧ (c.overlaps x z).isSome := by
  unfold neighbors
  rw [List.mem_filter]
  simp [bne_iff_ne]

theorem neighbors_length_le (c : Puzzle) (x : Slot) :
    (neighbors c x).length ≤ c.vars.length :=
  List.Sublist.length_le (List.filter_sublist _)

theorem revise_length_le {c : Puzzle} (x y : Slot) (d : Domains c)
    (v : Slot) : ((revise c x y d).2 v).length ≤ (d v).length := by
  by_cases hv : v = x
  · subst hv
    unfold revise
    split
    · exact le_refl _
    · split
      · exact le_refl _
      · simp only [updateD, if_pos rfl]
        exact List.length_filter_le _ _
  · rw [revise_snd_ne d hv]

theorem totalSize_revise_le (c : Puzzle) (x y : Slot) (d : Domains c) :
    totalSize c ((revise c x y d).2) ≤ totalSize c d :=
  List.sum_le_sum (fun v _ => revise_length_le x y d v)

theorem totalSize_revise_lt {c : Puzzle} {x y : Slot} {d : Domains c}
    (hx : x ∈ c.vars) (ht : (revise c x y d).1 = true) :
    totalSize c ((revise c x y d).2) < totalSize c d :=
  List.sum_lt_sum _ _ (fun v _ => revise_length_le x y d v)
    ⟨x, hx, revise_fst_true_length ht⟩

theorem ac3Go_subset (c : Puzzle) :
    ∀ fuel q (d : Domains c) b dr, ac3Go c fuel q d = some (b, dr) →
      ∀ v, dr v ⊆ d v := by
  intro fuel
  induction fuel with
  | zero => intro q d b dr h; simp [ac3Go] at h
  | succ n ih =>
    intro q d b dr h v
    match q with
    | [] =>
        simp only [ac3Go, Option.some.injEq, Prod.mk.injEq] at h
        rw [← h.2]
        exact List.Subset.refl _
    | (x, y) :: rest =>
        simp only [ac3Go] at h
        by_cases h1 : (revise c x y d).1 = true
        · rw [if_pos h1] at h
          by_cases h2 : ((revise c x y d).2 x).isEmpty = true
          · rw [if_pos h2] at h
            simp only [Option.some.injEq, Prod.mk.injEq] at h
            rw [← h.2]
            exact revise_snd_subset x y d v
          · rw [if_neg h2] at h
            exact fun w hw => revise_snd_subset x y d v (ih _ _ _ _ h v hw)
        · rw [if_neg h1] at h
          have hd : (revise c x y d).2 = d :=
            revise_fst_false (Bool.not_eq_true _ ▸ h1)
          rw [hd] at h
          exact ih _ _ _ _ h v

/-- C5: domains shrink monotonically — node consistency, `revise` and any
completed run of `ac3` each leave every variable's domain a subset of what
it was before; no solver operation adds a word to a domain. -/
theorem C5_domains_monotone (c : Puzzle) (d : Domains c) :
    (∀ v, enforceNodeConsistency c d v ⊆ d v) ∧
    (∀ x y v, (revise c x y d).2 v ⊆ d v) ∧
    (∀ arcs b dr, ac3 c arcs d = some (b, dr) → ∀ v, dr v ⊆ d v) :=
  ⟨enc_subset c d, fun x y v => revise_snd_subset x y d v,
    fun _ b dr h v => ac3Go_subset c _ _ d b dr h v⟩

/-- Witness for C5: the monotonicity statement evaluated on the concrete
puzzle `pSolve`, including a completed `ac3` run. -/
theorem C5_domains_monotone_witness :
    (∀ v, enforceNodeConsistency pSolve (initialDomains pSolve) v ⊆
      initialDomains pSolve v) ∧
    (∀ x y v, (revise pSolve x y (initialDomains pSolve)).2 v ⊆
      initialDomains pSolve v) ∧
    (∀ arcs b dr, ac3 pSolve arcs (initialDomains pSolve) = some (b, dr) →
      ∀ v, dr v ⊆ initialDomains pSolve v) :=
  C5_domains_monotone pSolve (initialDomains pSolve)

theorem ac3Go_total (c : Puzzle) :
    ∀ fuel q (d : Domains c), (∀ p ∈ q, p.1 ∈ c.vars) →
      q.length + (c.vars.length + 1) * totalSize c d < fuel →
      ∃ r, ac3Go c fuel q d = some r := by
  intro fuel
  induction fuel with
  | zero => intro q d _ hlt; omega
  | succ n ih =>
    intro q d hq hlt
    match q with
    | [] => exact ⟨(true, d), rfl⟩
    | (x, y) :: rest =>
        simp only [ac3Go]
        by_cases h1 : (revise c x y d).1 = true
        · rw [if_pos h1]
          by_cases h2 : ((revise c x y d).2 x).isEmpty = true
          · rw [if_pos h2]
            exact ⟨_, rfl⟩
          · rw [if_neg h2]
            apply ih
            · intro p hp
              rcases List.mem_append.mp hp with hp | hp
              · exact hq p (List.mem_cons_of_mem _ hp)
              · rcases List.mem_map.mp hp with ⟨z, hz, rfl⟩
                exact (mem_neighbors.mp (List.mem_of_mem_filter hz)).1
            · have hx : x ∈ c.vars := hq (x, y) (List.mem_cons_self _ _)
              have hts : totalSize c ((revise c x y d).2) + 1 ≤
                  totalSize c d := totalSize_revise_lt hx h1
              have happ :
                  (((neighbors c x).filter (fun z => z != y)).map
                    (fun z => (z, x))).length ≤ c.vars.length := by
                rw [List.length_map]
                exact le_trans
                  (List.Sublist.length_le (List.filter_sublist _))
                  (neighbors_length_le c x)
              have hmul : (c.vars.length + 1) *
                  (totalSize c ((revise c x y d).2) + 1) ≤
                  (c.vars.length + 1) * totalSize c d :=
                Nat.mul_le_mul_left _ hts
              rw [List.length_append, List.length_cons] at *
              rw [Nat.mul_add, Nat.mul_one] at hmul
              omega
        · rw [if_neg h1]
          have hd : (revise c x y d).2 = d :=
            revise_fst_false (Bool.not_eq_true _ ▸ h1)
          rw [hd]
          apply ih
          · exact fun p hp => hq p (List.mem_cons_of_mem _ hp)
          · rw [List.length_cons] at hlt
            omega

theorem ac3Go_false_empty (c : Puzzle) :
    ∀ fuel q (d : Domains c) dr, (∀ p ∈ q, p.1 ∈ c.vars) →
      ac3Go c fuel q d = some (false, dr) → ∃ x ∈ c.vars, dr x = [] := by
  intro fuel
  induction fuel with
  | zero => intro q d dr _ h; simp [ac3Go] at h
  | succ n ih =>
    intro q d dr hq h
    match q with
    | [] => simp [ac3Go] at h
    | (x, y) :: rest =>
        simp only [ac3Go] at h
        by_cases h1 : (revise c x y d).1 = true
        · rw [if_pos h1] at h
          by_cases h2 : ((revise c x y d).2 x).isEmpty = true
          · rw [if_pos h2] at h
            simp only [Option.some.injEq, Prod.mk.injEq] at h
            refine ⟨x, hq (x, y) (List.mem_cons_self _ _), ?_⟩
            rw [← h.2]
            exact List.isEmpty_iff.mp h2
          · rw [if_neg h2] at h
            apply ih _ _ _ _ h
            intro p hp
            rcases List.mem_append.mp hp with hp | hp
            · exact hq p (List.mem_cons_of_mem _ hp)
            · rcases List.mem_map.mp hp with ⟨z, hz, rfl⟩
              exact (mem_neighbors.mp (List.mem_of_mem_filter hz)).1
        · rw [if_neg h1] at h
          have hd : (revise c x y d).2 = d :=
            revise_fst_false (Bool.not_eq_true _ ▸ h1)
          rw [hd] at h
          exact ih _ _ _ (fun p hp => hq p (List.mem_cons_of_mem _ hp)) h

/-! The checked AC-3 agrees with the total one exactly on stores whose
words cover the recorded overlap positions; elsewhere it can raise. -/

theorem hasSupportE_eq {i j : Nat} {wx : Word} (hi : i < wx.length) :
    ∀ dy : List Word, (∀ wy ∈ dy, j < wy.length) →
      hasSupportE i j wx dy = some (hasSupport dy i j wx) := by
  intro dy
  induction dy with
  | nil => intro _; rfl
  | cons wy rest ih =>
      intro hj
      have hjy : j < wy.length := hj wy (List.mem_cons_self _ _)
      cases hg1 : wx.get? i with
      | none =>
          exfalso
          have hle := List.get?_eq_none.mp hg1
          omega
      | some a =>
          cases hg2 : wy.get? j with
          | none =>
              exfalso
              have hle := List.get?_eq_none.mp hg2
              omega
          | some b =>
              simp only [hasSupportE, hg1, hg2]
              by_cases hab : a = b
              · rw [if_pos hab]
                have hhead : hasSupport (wy :: rest) i j wx = true := by
                  apply List.any_eq_true.mpr
                  refine ⟨wy, List.mem_cons_self _ _, ?_⟩
                  rw [hg1, hg2, hab]
                  exact decide_eq_true rfl
                rw [hhead]
              · rw [if_neg hab,
                  ih (fun wy2 h2 => hj wy2 (List.mem_cons_of_mem _ h2))]
                have hhead : decide (wx.get? i = wy.get? j) = false := by
                  rw [hg1, hg2]
                  exact decide_eq_false
                    (fun hcontra => hab (Option.some.inj hcontra))
                simp only [hasSupport, List.any_cons, hhead, Bool.false_or]

theorem reviseGoE_eq {i j : Nat} {dy : List Word}
    (hj : ∀ wy ∈ dy, j < wy.length) :
    ∀ lx : List Word, (∀ w ∈ lx, i < w.length) →
      reviseGoE dy i j lx =
        some (lx.any (fun w => ! hasSupport dy i j w),
          lx.filter (hasSupport dy i j)) := by
  intro lx
  induction lx with
  | nil => intro _; rfl
  | cons wx rest ih =>
      intro hi
      have hix : i < wx.length := hi wx (List.mem_cons_self _ _)
      have hrest := ih (fun w hw => hi w (List.mem_cons_of_mem _ hw))
      cases hs : hasSupport dy i j wx with
      | false =>
          simp only [reviseGoE, hasSupportE_eq hix dy hj, hs, hrest]
          simp [hs]
      | true =>
          simp only [reviseGoE, hasSupportE_eq hix dy hj, hs, hrest]
          simp [hs]

theorem any_not_iff_filter_length {p : Word → Bool} (l : List Word) :
    l.any (fun w => ! p w) = true ↔ (l.filter p).length ≠ l.length := by
  constructor
  · intro h hlen
    rcases List.any_eq_true.mp h with ⟨w, hw, hpw⟩
    have hpw2 : p w = false := by
      cases hp : p w
      · rfl
      · rw [hp] at hpw
        simp at hpw
    have hfe : l.filter p = l :=
      List.Sublist.eq_of_length (List.filter_sublist _) hlen
    have hwf : w ∈ l.filter p := by
      rw [hfe]
      exact hw
    rw [List.of_mem_filter hwf] at hpw2
    cases hpw2
  · intro hne
    by_contra hany
    have hall : ∀ w ∈ l, p w = true := by
      intro w hw
      cases hp : p w
      · exact absurd (List.any_eq_true.mpr ⟨w, hw, by rw [hp]; rfl⟩) hany
      · rfl
    exact hne (by rw [List.filter_eq_self.mpr hall])

theorem reviseE_eq (c : Puzzle) (x y : Slot) (d : Domains c)
    (h : ∀ i j, c.overlaps x y = some (i, j) →
      (∀ w ∈ d x, i < w.length) ∧ (∀ w ∈ d y, j < w.length)) :
    reviseE c x y d = some (revise c x y d) := by
  cases hov : c.overlaps x y with
  | none => simp [reviseE, revise, hov]
  | some ij =>
      obtain ⟨i, j⟩ := ij
      obtain ⟨hi, hj⟩ := h i j hov
      simp only [reviseE, revise, hov, reviseGoE_eq hj (d x) hi]
      by_cases hlen :
          ((d x).filter (hasSupport (d y) i j)).length = (d x).length
      · have hany : (d x).any (fun w => ! hasSupport (d y) i j w) = false := by
          cases ha : (d x).any (fun w => ! hasSupport (d y) i j w)
          · rfl
          · exact absurd hlen ((any_not_iff_filter_length (d x)).mp ha)
        simp [hany, hlen]
      · have hany : (d x).any (fun w => ! hasSupport (d y) i j w) = true :=
          (any_not_iff_filter_length (d x)).mpr hlen
        simp [hany, hlen]

theorem InRangeD_elim {c : Puzzle} {d : Domains c} (h : InRangeD c d)
    {x y : Slot} (hx : x ∈ c.vars) (hy : y ∈ c.vars) {i j : Nat}
    (hov : c.overlaps x y = some (i, j)) :
    (∀ w ∈ d x, i < w.length) ∧ (∀ w ∈ d y, j < w.length) := by
  have h2 := h x hx y hy
  simp only [inRangeOk, hov, Bool.and_eq_true, List.all_eq_true,
    decide_eq_true_eq] at h2
  exact h2

theorem InRangeD_mono {c : Puzzle} {d d2 : Domains c}
    (hsub : ∀ v, d2 v ⊆ d v) (h : InRangeD c d) : InRangeD c d2 := by
  intro x hx y hy
  have h2 := h x hx y hy
  cases hov : c.overlaps x y with
  | none => simp [inRangeOk, hov]
  | some ij =>
      obtain ⟨i, j⟩ := ij
      simp only [inRangeOk, hov, Bool.and_eq_true, List.all_eq_true,
        decide_eq_true_eq] at h2 ⊢
      exact ⟨fun w hw => h2.1 w (hsub x hw),
        fun w hw => h2.2 w (hsub y hw)⟩

theorem ac3GoE_eq (c : Puzzle) :
    ∀ fuel q (d : Domains c),
      (∀ p ∈ q, p.1 ∈ c.vars ∧ p.2 ∈ c.vars) → InRangeD c d →
      ac3GoE c fuel q d =
        (ac3Go c fuel q d).map (fun r => Ac3Out.done r.1 r.2) := by
  intro fuel
  induction fuel with
  | zero => intro q d _ _; rfl
  | succ n ih =>
      intro q d hq hir
      match q with
      | [] => rfl
      | (x, y) :: rest =>
          have hx : x ∈ c.vars := (hq (x, y) (List.mem_cons_self _ _)).1
          have hy : y ∈ c.vars := (hq (x, y) (List.mem_cons_self _ _)).2
          have hrev : reviseE c x y d = some (revise c x y d) :=
            reviseE_eq c x y d (fun i j hov => InRangeD_elim hir hx hy hov)
          have hir2 : InRangeD c ((revise c x y d).2) :=
            InRangeD_mono (revise_snd_subset x y d) hir
          have hq2 : ∀ p ∈ rest ++ ((neighbors c x).filter
              (fun z => z != y)).map (fun z => (z, x)),
              p.1 ∈ c.vars ∧ p.2 ∈ c.vars := by
            intro p hp
            rcases List.mem_append.mp hp with hp | hp
            · exact hq p (List.mem_cons_of_mem _ hp)
            · rcases List.mem_map.mp hp with ⟨z, hz, rfl⟩
              exact ⟨(mem_neighbors.mp (List.mem_of_mem_filter hz)).1, hx⟩
          simp only [ac3GoE, ac3Go, hrev]
          by_cases h1 : (revise c x y d).1 = true
          · rw [if_pos h1, if_pos h1]
            by_cases h2 : ((revise c x y d).2 x).isEmpty = true
            · rw [if_pos h2, if_pos h2]
              rfl
            · rw [if_neg h2, if_neg h2]
              exact ih _ _ hq2 hir2
          · rw [if_neg h1, if_neg h1]
            exact ih _ _ (fun p hp => hq p (List.mem_cons_of_mem _ hp)) hir2

/-- Counterexample for C3 as stated: on the store `dShort` (whose only
word for `xAcross` is shorter than the recorded overlap position), the
checked `ac3` raises instead of returning a boolean — so "for every
domain store ... returns false ... otherwise returns true" fails. -/
theorem C3_counterexample_ac3_raises :
    ac3E pSolve (defaultArcs pSolve) dShort = some Ac3Out.err ∧
    ∀ b dr, ac3E pSolve (defaultArcs pSolve) dShort ≠
      some (Ac3Out.done b dr) := by
  refine ⟨rfl, fun b dr h => ?_⟩
  rw [show ac3E pSolve (defaultArcs pSolve) dShort = some Ac3Out.err
    from rfl] at h
  injection h with h
  exact Ac3Out.noConfusion h

/-- C3 (amended): for every worklist of arcs between the puzzle's
variables and every domain store whose words cover the recorded overlap
positions (so no comparison raises — e.g. any node-consistent store), the
checked `ac3` terminates with a boolean: false only with some variable's
domain emptied, true after draining the FIFO worklist.  On other stores
the source's `ac3` can raise IndexError instead of returning. -/
theorem C3_ac3_checked_terminates (c : Puzzle) (arcs : List (Slot × Slot))
    (d : Domains c) (hq : ∀ p ∈ arcs, p.1 ∈ c.vars ∧ p.2 ∈ c.vars)
    (hir : InRangeD c d) :
    ∃ b dr, ac3E c arcs d = some (Ac3Out.done b dr) ∧
      (b = false → ∃ x ∈ c.vars, dr x = []) := by
  obtain ⟨⟨b, dr⟩, h⟩ := ac3Go_total c (ac3Fuel c arcs d) arcs d
    (fun p hp => (hq p hp).1) (by unfold ac3Fuel; omega)
  refine ⟨b, dr, ?_, fun hb =>
    ac3Go_false_empty c _ _ _ _ (fun p hp => (hq p hp).1) (hb ▸ h)⟩
  show ac3GoE c (ac3Fuel c arcs d) arcs d = some (Ac3Out.done b dr)
  rw [ac3GoE_eq c _ _ _ hq hir, h]
  rfl

/-- Witness for C3's amended statement: the hypotheses hold for the
node-consistent store of the concrete puzzle `pFail`, and the checked
`ac3` returns a boolean there (in fact false, with a domain emptied). -/
theorem C3_ac3_checked_terminates_witness :
    ((∀ p ∈ defaultArcs pFail, p.1 ∈ pFail.vars ∧ p.2 ∈ pFail.vars) ∧
      InRangeD pFail (enforceNodeConsistency pFail (initialDomains pFail))) ∧
    ∃ b dr, ac3E pFail (defaultArcs pFail)
        (enforceNodeConsistency pFail (initialDomains pFail)) =
        some (Ac3Out.done b dr) ∧
      (b = false → ∃ x ∈ pFail.vars, dr x = []) :=
  ⟨⟨by decide, by decide⟩,
    C3_ac3_checked_terminates pFail (defaultArcs pFail)
      (enforceNodeConsistency pFail (initialDomains pFail))
      (by decide) (by decide)⟩

/-! Well-formedness consequences and idempotence of AC-3. -/

theorem Puzzle.WF.overlaps_symm {c : Puzzle} (hwf : c.WF) {x y : Slot}
    (hx : x ∈ c.vars) (hy : y ∈ c.vars) {i j : Nat}
    (hov : c.overlaps x y = some (i, j)) : c.overlaps y x = some (j, i) := by
  have h := (hwf.2 x hx y hy).2
  simp only [overlapOk, hov, Bool.and_eq_true, beq_iff_eq] at h
  exact h.1.1

theorem Puzzle.WF.ne_of_overlaps {c : Puzzle} (hwf : c.WF) {x y : Slot}
    (hx : x ∈ c.vars) (hy : y ∈ c.vars) {i j : Nat}
    (hov : c.overlaps x y = some (i, j)) : x ≠ y := by
  intro heq
  subst heq
  rw [(hwf.2 x hx x hx).1 rfl] at hov
  cases hov

theorem Puzzle.WF.overlaps_lt {c : Puzzle} (hwf : c.WF) {x y : Slot}
    (hx : x ∈ c.vars) (hy : y ∈ c.vars) {i j : Nat}
    (hov : c.overlaps x y = some (i, j)) : i < x.len ∧ j < y.len := by
  have h := (hwf.2 x hx y hy).2
  simp only [overlapOk, hov, Bool.and_eq_true, beq_iff_eq,
    decide_eq_true_eq] at h
  exact ⟨h.1.2, h.2⟩

theorem revise_of_arcCons {c : Puzzle} {x y : Slot} {d : Domains c}
    (h : arcConsB c d x y = true) : revise c x y d = (false, d) := by
  cases hov : c.overlaps x y with
  | none => exact revise_of_no_overlap d hov
  | some ij =>
    obtain ⟨i, j⟩ := ij
    simp only [arcConsB, hov] at h
    have hself : (d x).filter (hasSupport (d y) i j) = d x :=
      List.filter_eq_self.mpr (fun w hw => List.all_eq_true.mp h w hw)
    simp [revise, hov, hself]

theorem arcCons_of_revise_false {c : Puzzle} {x y : Slot} {d : Domains c}
    (h : (revise c x y d).1 = false) : arcConsB c d x y = true := by
  cases hov : c.overlaps x y with
  | none => simp [arcConsB, hov]
  | some ij =>
    obtain ⟨i, j⟩ := ij
    simp only [revise, hov] at h
    simp only [arcConsB, hov]
    by_cases hl : ((d x).filter (hasSupport (d y) i j)).length = (d x).length
    · apply List.all_eq_true.mpr
      intro w hw
      have hmem : w ∈ (d x).filter (hasSupport (d y) i j) := by
        rw [List.Sublist.eq_of_length (List.filter_sublist _) hl]
        exact hw
      exact List.of_mem_filter hmem
    · rw [if_neg hl] at h
      simp at h

theorem arcCons_after_revise {c : Puzzle} {x y : Slot} (d : Domains c)
    (hxy : x ≠ y) : arcConsB c ((revise c x y d).2) x y = true := by
  cases hov : c.overlaps x y with
  | none => simp [arcConsB, hov]
  | some ij =>
    obtain ⟨i, j⟩ := ij
    simp only [arcConsB, hov]
    rw [revise_snd_x d hov, revise_snd_ne d (Ne.symm hxy)]
    apply List.all_eq_true.mpr
    intro w hw
    exact List.of_mem_filter hw

theorem arcCons_mono {c : Puzzle} {d d2 : Domains c} {u v : Slot}
    (h : arcConsB c d u v = true) (hu : d2 u ⊆ d u) (hv : d2 v = d v) :
    arcConsB c d2 u v = true := by
  cases hov : c.overlaps u v with
  | none => simp [arcConsB, hov]
  | some ij =>
    obtain ⟨i, j⟩ := ij
    simp only [arcConsB, hov] at h ⊢
    rw [hv]
    apply List.all_eq_true.mpr
    intro w hw
    exact List.all_eq_true.mp h w (hu hw)

theorem arcCons_target_preserved {c : Puzzle} {x y : Slot} {d : Domains c}
    {i j : Nat} (hov : c.overlaps x y = some (i, j))
    (hsym : c.overlaps y x = some (j, i)) (hxy : x ≠ y)
    (h : arcConsB c d y x = true) :
    arcConsB c ((revise c x y d).2) y x = true := by
  simp only [arcConsB, hsym] at h ⊢
  rw [revise_snd_ne d (Ne.symm hxy), revise_snd_x d hov]
  apply List.all_eq_true.mpr
  intro wy hwy
  have hs : hasSupport (d x) j i wy = true := List.all_eq_true.mp h wy hwy
  rcases List.any_eq_true.mp hs with ⟨wx, hwx, heq⟩
  have heq2 : wy.get? j = wx.get? i := of_decide_eq_true heq
  apply List.any_eq_true.mpr
  refine ⟨wx, List.mem_filter.mpr ⟨hwx, ?_⟩, decide_eq_true heq2⟩
  exact List.any_eq_true.mpr ⟨wy, hwy, decide_eq_true heq2.symm⟩

theorem ac3Go_true_allCons (c : Puzzle) (hwf : c.WF) :
    ∀ fuel q (d : Domains c) dr,
      (∀ p ∈ q, p.1 ∈ c.vars ∧ p.2 ∈ c.vars) →
      (∀ x ∈ c.vars, ∀ y ∈ neighbors c x,
        (x, y) ∈ q ∨ arcConsB c d x y = true) →
      ac3Go c fuel q d = some (true, dr) →
      ∀ x ∈ c.vars, ∀ y ∈ neighbors c x, arcConsB c dr x y = true := by
  intro fuel
  induction fuel with
  | zero => intro q d dr _ _ h; simp [ac3Go] at h
  | succ n ih =>
    intro q d dr hq hinv h
    match q with
    | [] =>
        simp only [ac3Go, Option.some.injEq, Prod.mk.injEq] at h
        intro x hx y hy
        rcases hinv x hx y hy with hmem | hcons
        · exact absurd hmem (List.not_mem_nil _)
        · rw [← h.2]
          exact hcons
    | (a, b) :: rest =>
        have ha : a ∈ c.vars := (hq (a, b) (List.mem_cons_self _ _)).1
        have hb : b ∈ c.vars := (hq (a, b) (List.mem_cons_self _ _)).2
        simp only [ac3Go] at h
        by_cases h1 : (revise c a b d).1 = true
        · rw [if_pos h1] at h
          by_cases h2 : ((revise c a b d).2 a).isEmpty = true
          · rw [if_pos h2] at h
            simp at h
          · rw [if_neg h2] at h
            obtain ⟨i, j, hov⟩ : ∃ i j, c.overlaps a b = some (i, j) := by
              cases hov : c.overlaps a b with
              | none =>
                  rw [revise_of_no_overlap d hov] at h1
                  simp at h1
              | some ij =>
                  obtain ⟨i, j⟩ := ij
                  exact ⟨i, j, rfl⟩
            have hab : a ≠ b := hwf.ne_of_overlaps ha hb hov
            have hsym : c.overlaps b a = some (j, i) :=
              hwf.overlaps_symm ha hb hov
            apply ih _ _ _ ?_ ?_ h
            · intro p hp
              rcases List.mem_append.mp hp with hp | hp
              · exact hq p (List.mem_cons_of_mem _ hp)
              · rcases List.mem_map.mp hp with ⟨z, hz, rfl⟩
                exact ⟨(mem_neighbors.mp (List.mem_of_mem_filter hz)).1, ha⟩
            · intro x hx y hy
              rcases hinv x hx y hy with hmem | hcons
              · rcases List.mem_cons.mp hmem with heq | hmem
                · right
                  obtain ⟨rfl, rfl⟩ := Prod.mk.injEq .. ▸ heq
                  exact arcCons_after_revise d hab
                · left
                  exact List.mem_append_left _ hmem
              · by_cases hya : y = a
                · rw [hya] at hy hcons ⊢
                  have hax : a ≠ x := (mem_neighbors.mp hy).2.1
                  obtain ⟨⟨i2, j2⟩, hov2⟩ :=
                    Option.isSome_iff_exists.mp (mem_neighbors.mp hy).2.2
                  have hxmem : x ∈ neighbors c a :=
                    mem_neighbors.mpr ⟨hx, Ne.symm hax,
                      by rw [hwf.overlaps_symm hx ha hov2]; rfl⟩
                  by_cases hxb : x = b
                  · rw [hxb] at hcons ⊢
                    right
                    exact arcCons_target_preserved hov hsym hab hcons
                  · left
                    apply List.mem_append_right
                    apply List.mem_map.mpr
                    refine ⟨x, List.mem_filter.mpr ⟨hxmem, ?_⟩, rfl⟩
                    exact bne_iff_ne.mpr hxb
                · right
                  exact arcCons_mono hcons (revise_snd_subset a b d x)
                    (revise_snd_ne d hya)
        · rw [if_neg h1] at h
          have hfalse : (revise c a b d).1 = false := Bool.not_eq_true _ ▸ h1
          have hd : (revise c a b d).2 = d := revise_fst_false hfalse
          rw [hd] at h
          apply ih _ _ _ (fun p hp => hq p (List.mem_cons_of_mem _ hp)) ?_ h
          intro x hx y hy
          rcases hinv x hx y hy with hmem | hcons
          · rcases List.mem_cons.mp hmem with heq | hmem
            · right
              obtain ⟨rfl, rfl⟩ := Prod.mk.injEq .. ▸ heq
              exact arcCons_of_revise_false hfalse
            · left
              exact hmem
          · right
            exact hcons

theorem ac3Go_drain (c : Puzzle) :
    ∀ q (d : Domains c) fuel, (∀ p ∈ q, arcConsB c d p.1 p.2 = true) →
      q.length < fuel → ac3Go c fuel q d = some (true, d) := by
  intro q
  induction q with
  | nil =>
      intro d fuel _ hf
      cases fuel with
      | zero => omega
      | succ n => rfl
  | cons p rest ih =>
      intro d fuel hcons hf
      cases fuel with
      | zero => simp at hf
      | succ n =>
          obtain ⟨a, b⟩ := p
          have hr : revise c a b d = (false, d) :=
            revise_of_arcCons (hcons (a, b) (List.mem_cons_self _ _))
          simp only [ac3Go, hr]
          exact ih d n (fun p hp => hcons p (List.mem_cons_of_mem _ hp))
            (by simpa using hf)

theorem mem_defaultArcs {c : Puzzle} {x y : Slot} :
    (x, y) ∈ defaultArcs c ↔ x ∈ c.vars ∧ y ∈ neighbors c x := by
  unfold defaultArcs
  simp only [List.mem_flatMap, List.mem_map, Prod.mk.injEq]
  constructor
  · rintro ⟨a, ha, z, hz, rfl, rfl⟩
    exact ⟨ha, hz⟩
  · rintro ⟨hx, hy⟩
    exact ⟨x, hx, y, hy, rfl, rfl⟩

/-- C6: on a well-formed puzzle, a second run of `ac3` with the default
worklist immediately after a completed first run (one that drained its
worklist and returned true) removes no further words: it returns true with
the very same domains. -/
theorem C6_ac3_idempotent (c : Puzzle) (hwf : c.WF) (d d1 : Domains c)
    (h1 : ac3Default c d = some (true, d1)) :
    ac3Default c d1 = some (true, d1) := by
  have hq : ∀ p ∈ defaultArcs c, p.1 ∈ c.vars ∧ p.2 ∈ c.vars := by
    intro p hp
    obtain ⟨x, y⟩ := p
    have hm := mem_defaultArcs.mp hp
    exact ⟨hm.1, (mem_neighbors.mp hm.2).1⟩
  have hall := ac3Go_true_allCons c hwf _ _ _ _ hq
    (fun x hx y hy => Or.inl (mem_defaultArcs.mpr ⟨hx, hy⟩)) h1
  show ac3Go c (ac3Fuel c (defaultArcs c) d1) (defaultArcs c) d1 =
    some (true, d1)
  apply ac3Go_drain
  · intro p hp
    obtain ⟨x, y⟩ := p
    have hm := mem_defaultArcs.mp hp
    exact hall x hm.1 y hm.2
  · unfold ac3Fuel
    omega

/-- Witness for C6: on the concrete puzzle `pSolve` the first `ac3` run
returns true on the node-consistent domains, and the second run returns
the same domains. -/
theorem C6_ac3_idempotent_witness :
    pSolve.WF ∧
    ∃ d1, ac3Default pSolve
        (enforceNodeConsistency pSolve (initialDomains pSolve)) =
        some (true, d1) ∧
      ac3Default pSolve d1 = some (true, d1) :=
  ⟨by decide, _, rfl,
    C6_ac3_idempotent pSolve (by decide)
      (enforceNodeConsistency pSolve (initialDomains pSolve)) _ rfl⟩

/-! Lemmas about assignments and the backtracking search. -/

theorem lookupA_eq_none_iff {a : Assignment} {v : Slot} :
    lookupA a v = none ↔ ∀ p ∈ a, p.1 ≠ v := by
  induction a with
  | nil => simp [lookupA]
  | cons p rest ih =>
      obtain ⟨u, w⟩ := p
      simp only [lookupA]
      by_cases hu : u = v
      · rw [if_pos hu]
        simp only [List.mem_cons]
        constructor
        · intro h; cases h
        · intro h
          exact absurd hu (h (u, w) (Or.inl rfl))
      · rw [if_neg hu, ih]
        constructor
        · intro h p hp
          rcases List.mem_cons.mp hp with rfl | hp
          · exact hu
          · exact h p hp
        · intro h p hp
          exact h p (List.mem_cons_of_mem _ hp)

theorem lookupA_mem {a : Assignment} {v : Slot} {w : Word}
    (h : lookupA a v = some w) : (v, w) ∈ a := by
  induction a with
  | nil => simp [lookupA] at h
  | cons p rest ih =>
      obtain ⟨u, w0⟩ := p
      simp only [lookupA] at h
      by_cases hu : u = v
      · rw [if_pos hu] at h
        injection h with h
        rw [← hu, ← h]
        exact List.mem_cons_self _ _
      · rw [if_neg hu] at h
        exact List.mem_cons_of_mem _ (ih h)

theorem popA_eq_of_unassigned {a : Assignment} {v : Slot}
    (h : lookupA a v = none) : popA a v = a :=
  List.filter_eq_self.mpr
    (fun p hp => bne_iff_ne.mpr (lookupA_eq_none_iff.mp h p hp))

theorem popA_append {a : Assignment} {x : Slot} {w : Word}
    (h : lookupA a x = none) : popA (a ++ [(x, w)]) x = a := by
  unfold popA
  rw [List.filter_append]
  have h1 : List.filter (fun p => p.1 != x) [(x, w)] = [] := by simp
  have h2 : List.filter (fun p => p.1 != x) a = a := popA_eq_of_unassigned h
  rw [h1, h2, List.append_nil]

theorem foldl_min_mem {c : Puzzle} (d : Domains c) :
    ∀ (rest : List Slot) (v : Slot),
      rest.foldl (fun best u =>
        if (d u).length < (d best).length then u else best) v ∈ v :: rest := by
  intro rest
  induction rest with
  | nil => intro v; exact List.mem_cons_self _ _
  | cons u rest ih =>
      intro v
      simp only [List.foldl_cons]
      by_cases hc : (d u).length < (d v).length
      · rw [if_pos hc]
        exact List.mem_cons_of_mem _ (ih u)
      · rw [if_neg hc]
        rcases List.mem_cons.mp (ih v) with h | h
        · rw [h]
          exact List.mem_cons_self _ _
        · exact List.mem_cons_of_mem _ (List.mem_cons_of_mem _ h)

theorem foldl_min_le {c : Puzzle} (d : Domains c) :
    ∀ (rest : List Slot) (v u : Slot), u ∈ v :: rest →
      (d (rest.foldl (fun best u =>
        if (d u).length < (d best).length then u else best) v)).length ≤
      (d u).length := by
  intro rest
  induction rest with
  | nil =>
      intro v u hu
      simp only [List.foldl_nil]
      rcases List.mem_cons.mp hu with h | h
      · rw [h]
      · cases h
  | cons w rest ih =>
      intro v u hu
      simp only [List.foldl_cons]
      by_cases hc : (d w).length < (d v).length
      · rw [if_pos hc]
        rcases List.mem_cons.mp hu with h | h
        · rw [h]
          exact le_trans (ih w w (List.mem_cons_self _ _)) (le_of_lt hc)
        · exact ih w u h
      · rw [if_neg hc]
        rcases List.mem_cons.mp hu with h | h
        · rw [h]
          exact ih v v (List.mem_cons_self _ _)
        · rcases List.mem_cons.mp h with h2 | h2
          · rw [h2]
            exact le_trans (ih v v (List.mem_cons_self _ _))
              (le_of_not_lt hc)
          · exact ih v u (List.mem_cons_of_mem _ h2)

theorem selectUnassigned_unassigned {c : Puzzle} {d : Domains c}
    {a : Assignment} {x : Slot} (h : selectUnassigned c d a = some x) :
    lookupA a x = none := by
  unfold selectUnassigned at h
  cases hf : c.vars.filter (fun v => (lookupA a v).isNone) with
  | nil => rw [hf] at h; cases h
  | cons v rest =>
      rw [hf] at h
      injection h with h
      have hmem : x ∈ v :: rest := h ▸ foldl_min_mem d rest v
      rw [← hf] at hmem
      exact Option.isNone_iff_eq_none.mp (List.mem_filter.mp hmem).2

theorem tryValues_state (c : Puzzle)
    (bt : Assignment → Option Assignment × Assignment)
    (hbt : ∀ a0 : Assignment,
      ((bt a0).1 = none → (bt a0).2 = a0) ∧
      (∀ r, (bt a0).1 = some r → (bt a0).2 = r ∧ ∃ t, r = a0 ++ t)) :
    ∀ (ws : List Word) (a : Assignment) (x : Slot), lookupA a x = none →
      ((tryValues c bt x ws a).1 = none → (tryValues c bt x ws a).2 = a) ∧
      (∀ r, (tryValues c bt x ws a).1 = some r →
        (tryValues c bt x ws a).2 = r ∧ ∃ t, r = a ++ t) := by
  intro ws
  induction ws with
  | nil =>
      intro a x _
      refine ⟨fun _ => rfl, fun r hr => ?_⟩
      cases hr
  | cons w rest ih =>
      intro a x hx
      simp only [tryValues]
      by_cases hc : consistent c (a ++ [(x, w)]) = some true
      · rw [if_pos hc]
        obtain ⟨hnone, hsome⟩ := hbt (a ++ [(x, w)])
        rcases hb : bt (a ++ [(x, w)]) with ⟨ores, s⟩
        rw [hb] at hnone hsome
        cases ores with
        | none =>
            have hs : s = a ++ [(x, w)] := hnone rfl
            have hpop : popA s x = a := by rw [hs]; exact popA_append hx
            dsimp only
            rw [hpop]
            exact ih a x hx
        | some r0 =>
            obtain ⟨hs, t, ht⟩ := hsome r0 rfl
            dsimp only at hs ⊢
            by_cases hre : r0.isEmpty = true
            · exfalso
              rw [List.isEmpty_iff] at hre
              rw [hre] at ht
              have hlen := congrArg List.length ht
              simp only [List.length_nil, List.length_append,
                List.length_cons] at hlen
              omega
            · rw [if_neg hre]
              refine ⟨fun hr => ?_, fun r hr => ?_⟩
              · cases hr
              · injection hr with hr
                subst hr
                exact ⟨hs, [(x, w)] ++ t, by rw [ht, List.append_assoc]⟩
      · rw [if_neg hc, popA_append hx]
        exact ih a x hx

theorem backtrackGo_state (c : Puzzle) (d : Domains c) :
    ∀ (fuel : Nat) (a : Assignment),
      ((backtrackGo c d fuel a).1 = none → (backtrackGo c d fuel a).2 = a) ∧
      (∀ r, (backtrackGo c d fuel a).1 = some r →
        (backtrackGo c d fuel a).2 = r ∧ ∃ t, r = a ++ t) := by
  intro fuel
  induction fuel with
  | zero =>
      intro a
      refine ⟨fun _ => rfl, fun r hr => ?_⟩
      cases hr
  | succ n ih =>
      intro a
      simp only [backtrackGo]
      by_cases hcomp : assignmentComplete c a = true
      · rw [if_pos hcomp]
        refine ⟨fun hr => ?_, fun r hr => ?_⟩
        · cases hr
        · injection hr with hr
          subst hr
          exact ⟨rfl, [], (List.append_nil a).symm⟩
      · rw [if_neg hcomp]
        cases hsel : selectUnassigned c d a with
        | none =>
            refine ⟨fun _ => rfl, fun r hr => ?_⟩
            cases hr
        | some x =>
            exact tryValues_state c _ ih _ a x
              (selectUnassigned_unassigned hsel)

/-- C8: `backtrack` restores its argument on failure — whenever the call
returns Python's `None`, the assignment dictionary holds exactly the
entries it held at entry. -/
theorem C8_backtrack_restores (c : Puzzle) (d : Domains c) (a : Assignment)
    (h : (backtrack c d a).1 = none) : (backtrack c d a).2 = a :=
  (backtrackGo_state c d _ a).1 h

/-- Witness for C8: on the concrete puzzle `pFail` with an empty domain,
`backtrack` starting from the empty assignment fails and the assignment is
still empty. -/
theorem C8_backtrack_restores_witness :
    (backtrack pFail dFail []).1 = none ∧ (backtrack pFail dFail []).2 = [] :=
  ⟨by decide, C8_backtrack_restores pFail dFail [] (by decide)⟩

/-! Soundness of `consistent` and of the backtracking search. -/

theorem consistentGo_length (c : Puzzle) (a : Assignment) :
    ∀ (l : List Slot) (seen : List Word), consistentGo c a l seen = some true →
      ∀ v ∈ l, ∀ w, lookupA a v = some w → w.length = v.len := by
  intro l
  induction l with
  | nil => intro seen _ v hv; cases hv
  | cons v0 rest ih =>
      intro seen h v hv w hw
      cases hl : lookupA a v0 with
      | none =>
          simp only [consistentGo, hl] at h
          rcases List.mem_cons.mp hv with h2 | h2
          · rw [h2, hl] at hw; cases hw
          · exact ih seen h v h2 w hw
      | some w0 =>
          simp only [consistentGo, hl] at h
          by_cases hlen : w0.length ≠ v0.len
          · rw [if_pos hlen] at h; simp at h
          · rw [if_neg hlen] at h
            cases hchk : checkNeighbors c a v0 w0 (neighbors c v0) with
            | none => rw [hchk] at h; simp at h
            | some bchk =>
                rw [hchk] at h
                cases bchk with
                | false => simp at h
                | true =>
                    by_cases hseen : w0 ∈ seen
                    · rw [if_pos hseen] at h; simp at h
                    · rw [if_neg hseen] at h
                      rcases List.mem_cons.mp hv with h2 | h2
                      · rw [h2, hl] at hw
                        injection hw with hw
                        rw [← hw, h2]
                        exact of_not_not hlen
                      · exact ih (w0 :: seen) h v h2 w hw

theorem consistentGo_checkNb (c : Puzzle) (a : Assignment) :
    ∀ (l : List Slot) (seen : List Word), consistentGo c a l seen = some true →
      ∀ v ∈ l, ∀ w, lookupA a v = some w →
        checkNeighbors c a v w (neighbors c v) = some true := by
  intro l
  induction l with
  | nil => intro seen _ v hv; cases hv
  | cons v0 rest ih =>
      intro seen h v hv w hw
      cases hl : lookupA a v0 with
      | none =>
          simp only [consistentGo, hl] at h
          rcases List.mem_cons.mp hv with h2 | h2
          · rw [h2, hl] at hw; cases hw
          · exact ih seen h v h2 w hw
      | some w0 =>
          simp only [consistentGo, hl] at h
          by_cases hlen : w0.length ≠ v0.len
          · rw [if_pos hlen] at h; simp at h
          · rw [if_neg hlen] at h
            cases hchk : checkNeighbors c a v0 w0 (neighbors c v0) with
            | none => rw [hchk] at h; simp at h
            | some bchk =>
                rw [hchk] at h
                cases bchk with
                | false => simp at h
                | true =>
                    by_cases hseen : w0 ∈ seen
                    · rw [if_pos hseen] at h; simp at h
                    · rw [if_neg hseen] at h
                      rcases List.mem_cons.mp hv with h2 | h2
                      · rw [h2, hl] at hw
                        injection hw with hw
                        rw [← hw, h2]
                        exact hchk
                      · exact ih (w0 :: seen) h v h2 w hw

theorem checkNeighbors_agree (c : Puzzle) (a : Assignment) (v : Slot)
    (w : Word) :
    ∀ (nbl : List Slot), checkNeighbors c a v w nbl = some true →
      ∀ nb ∈ nbl, ∀ wnb, lookupA a nb = some wnb →
        ∀ i j, c.overlaps v nb = some (i, j) → w.get? i = wnb.get? j := by
  intro nbl
  induction nbl with
  | nil => intro _ nb hnb; cases hnb
  | cons nb0 rest ih =>
      intro h nb hnb wnb hwnb i j hov
      cases hl : lookupA a nb0 with
      | none =>
          simp only [checkNeighbors, hl] at h
          rcases List.mem_cons.mp hnb with h2 | h2
          · rw [h2, hl] at hwnb; cases hwnb
          · exact ih h nb h2 wnb hwnb i j hov
      | some wnb0 =>
          cases hov0 : c.overlaps v nb0 with
          | none =>
              simp only [checkNeighbors, hl, hov0] at h
              simp at h
          | some ij0 =>
              obtain ⟨i0, j0⟩ := ij0
              cases hg1 : w.get? i0 with
              | none =>
                  simp only [checkNeighbors, hl, hov0, hg1] at h
                  simp at h
              | some ch1 =>
                  cases hg2 : wnb0.get? j0 with
                  | none =>
                      simp only [checkNeighbors, hl, hov0, hg1, hg2] at h
                      simp at h
                  | some ch2 =>
                      simp only [checkNeighbors, hl, hov0, hg1, hg2] at h
                      by_cases hch : ch1 ≠ ch2
                      · rw [if_pos hch] at h; simp at h
                      · rw [if_neg hch] at h
                        rcases List.mem_cons.mp hnb with h2 | h2
                        · rw [h2, hl] at hwnb
                          injection hwnb with hwnb
                          rw [h2, hov0] at hov
                          injection hov with hov
                          have hij : i0 = i ∧ j0 = j := Prod.mk.injEq .. ▸ hov
                          rw [← hij.1, ← hij.2, hg1, ← hwnb, hg2,
                            of_not_not hch]
                        · exact ih h nb h2 wnb hwnb i j hov

theorem consistentGo_unique (c : Puzzle) (a : Assignment) :
    ∀ (l : List Slot) (seen : List Word), consistentGo c a l seen = some true →
      (∀ v ∈ l, ∀ w, lookupA a v = some w → w ∉ seen) ∧
      (∀ v1 ∈ l, ∀ v2 ∈ l, v1 ≠ v2 → ∀ w1 w2, lookupA a v1 = some w1 →
        lookupA a v2 = some w2 → w1 ≠ w2) := by
  intro l
  induction l with
  | nil =>
      intro seen _
      exact ⟨fun v hv => absurd hv (List.not_mem_nil _),
        fun v1 hv1 => absurd hv1 (List.not_mem_nil _)⟩
  | cons v0 rest ih =>
      intro seen h
      cases hl : lookupA a v0 with
      | none =>
          simp only [consistentGo, hl] at h
          obtain ⟨ihseen, ihpair⟩ := ih seen h
          constructor
          · intro v hv w hw
            rcases List.mem_cons.mp hv with h2 | h2
            · rw [h2, hl] at hw; cases hw
            · exact ihseen v h2 w hw
          · intro v1 hv1 v2 hv2 hne w1 w2 hw1 hw2
            rcases List.mem_cons.mp hv1 with h1 | h1
            · rw [h1, hl] at hw1; cases hw1
            · rcases List.mem_cons.mp hv2 with h2 | h2
              · rw [h2, hl] at hw2; cases hw2
              · exact ihpair v1 h1 v2 h2 hne w1 w2 hw1 hw2
      | some w0 =>
          simp only [consistentGo, hl] at h
          by_cases hlen : w0.length ≠ v0.len
          · rw [if_pos hlen] at h; simp at h
          · rw [if_neg hlen] at h
            cases hchk : checkNeighbors c a v0 w0 (neighbors c v0) with
            | none => rw [hchk] at h; simp at h
            | some bchk =>
                rw [hchk] at h
                cases bchk with
                | false => simp at h
                | true =>
                    by_cases hseen : w0 ∈ seen
                    · rw [if_pos hseen] at h; simp at h
                    · rw [if_neg hseen] at h
                      obtain ⟨ihseen, ihpair⟩ := ih (w0 :: seen) h
                      constructor
                      · intro v hv w hw
                        rcases List.mem_cons.mp hv with h2 | h2
                        · rw [h2, hl] at hw
                          injection hw with hw
                          rw [← hw]
                          exact hseen
                        · intro hws
                          exact ihseen v h2 w hw
                            (List.mem_cons_of_mem _ hws)
                      · intro v1 hv1 v2 hv2 hne w1 w2 hw1 hw2
                        rcases List.mem_cons.mp hv1 with h1 | h1
                        · rcases List.mem_cons.mp hv2 with h2 | h2
                          · exact absurd (h1.trans h2.symm) hne
                          · rw [h1, hl] at hw1
                            injection hw1 with hw1
                            intro heq
                            apply ihseen v2 h2 w2 hw2
                            rw [← heq, ← hw1]
                            exact List.mem_cons_self _ _
                        · rcases List.mem_cons.mp hv2 with h2 | h2
                          · rw [h2, hl] at hw2
                            injection hw2 with hw2
                            intro heq
                            apply ihseen v1 h1 w1 hw1
                            rw [heq, ← hw2]
                            exact List.mem_cons_self _ _
                          · exact ihpair v1 h1 v2 h2 hne w1 w2 hw1 hw2

theorem tryValues_sound (c : Puzzle)
    (bt : Assignment → Option Assignment × Assignment)
    (hbtState : ∀ a0 : Assignment,
      ((bt a0).1 = none → (bt a0).2 = a0) ∧
      (∀ r, (bt a0).1 = some r → (bt a0).2 = r ∧ ∃ t, r = a0 ++ t))
    (hbtSound : ∀ a0 r, (bt a0).1 = some r →
      assignmentComplete c r = true ∧
      (consistent c r = some true ∨ r = a0)) :
    ∀ (ws : List Word) (a : Assignment) (x : Slot), lookupA a x = none →
      ∀ r, (tryValues c bt x ws a).1 = some r →
        assignmentComplete c r = true ∧ consistent c r = some true := by
  intro ws
  induction ws with
  | nil => intro a x _ r hr; cases hr
  | cons w rest ih =>
      intro a x hx r hr
      simp only [tryValues] at hr
      by_cases hc : consistent c (a ++ [(x, w)]) = some true
      · rw [if_pos hc] at hr
        obtain ⟨hnone, hsome⟩ := hbtState (a ++ [(x, w)])
        rcases hb : bt (a ++ [(x, w)]) with ⟨ores, s⟩
        rw [hb] at hr hnone hsome
        cases ores with
        | none =>
            have hs : s = a ++ [(x, w)] := hnone rfl
            dsimp only at hr
            rw [hs, popA_append hx] at hr
            exact ih a x hx r hr
        | some r0 =>
            obtain ⟨hs, t, ht⟩ := hsome r0 rfl
            dsimp only at hr
            by_cases hre : r0.isEmpty = true
            · exfalso
              rw [List.isEmpty_iff] at hre
              rw [hre] at ht
              have hlen := congrArg List.length ht
              simp only [List.length_nil, List.length_append,
                List.length_cons] at hlen
              omega
            · rw [if_neg hre] at hr
              injection hr with hr
              obtain ⟨hcomp, hcons⟩ := hbtSound (a ++ [(x, w)]) r0
                (by rw [hb])
              rw [← hr]
              rcases hcons with hcons | hcons
              · exact ⟨hcomp, hcons⟩
              · rw [hcons]
                exact ⟨hcons ▸ hcomp, hc⟩
      · rw [if_neg hc, popA_append hx] at hr
        exact ih a x hx r hr

theorem backtrackGo_sound (c : Puzzle) (d : Domains c) :
    ∀ (fuel : Nat) (a : Assignment) (r : Assignment),
      (backtrackGo c d fuel a).1 = some r →
      assignmentComplete c r = true ∧
      (consistent c r = some true ∨ r = a) := by
  intro fuel
  induction fuel with
  | zero => intro a r hr; cases hr
  | succ n ih =>
      intro a r hr
      simp only [backtrackGo] at hr
      by_cases hcomp : assignmentComplete c a = true
      · rw [if_pos hcomp] at hr
        injection hr with hr
        rw [← hr]
        exact ⟨hcomp, Or.inr rfl⟩
      · rw [if_neg hcomp] at hr
        cases hsel : selectUnassigned c d a with
        | none => rw [hsel] at hr; cases hr
        | some x =>
            rw [hsel] at hr
            have h := tryValues_sound c (backtrackGo c d n)
              (fun a0 => backtrackGo_state c d n a0)
              (fun a0 r0 h0 => ih a0 r0 h0)
              (orderDomainValues c d x) a x
              (selectUnassigned_unassigned hsel) r hr
            exact ⟨h.1, Or.inl h.2⟩

theorem solve_some (c : Puzzle) {r : Assignment} (h : solve c = some r) :
    assignmentComplete c r = true ∧
    (consistent c r = some true ∨ r = []) := by
  simp only [solve] at h
  cases hac : ac3Default c (enforceNodeConsistency c (initialDomains c)) with
  | none => rw [hac] at h; cases h
  | some p =>
      obtain ⟨b, d2⟩ := p
      rw [hac] at h
      exact backtrackGo_sound c d2 _ [] r h

/-- C2: every non-failure assignment returned by `solve()` is complete and
consistent — it assigns a word to every variable, each assigned word's
length equals its variable's length, characters agree at every recorded
overlap, and no word is assigned to two different variables. -/
theorem C2_solve_sound (c : Puzzle) (hwf : c.WF) (r : Assignment)
    (h : solve c = some r) :
    (∀ v ∈ c.vars, ∃ w, lookupA r v = some w) ∧
    (∀ v ∈ c.vars, ∀ w, lookupA r v = some w → w.length = v.len) ∧
    (∀ x ∈ c.vars, ∀ y ∈ c.vars, ∀ i j wx wy,
      c.overlaps x y = some (i, j) → lookupA r x = some wx →
      lookupA r y = some wy → wx.get? i = wy.get? j) ∧
    (∀ x ∈ c.vars, ∀ y ∈ c.vars, x ≠ y → ∀ wx wy, lookupA r x = some wx →
      lookupA r y = some wy → wx ≠ wy) := by
  obtain ⟨hcomp, hcons⟩ := solve_some c h
  have hcomplete : ∀ v ∈ c.vars, ∃ w, lookupA r v = some w := by
    intro v hv
    exact Option.isSome_iff_exists.mp (List.all_eq_true.mp hcomp v hv)
  rcases hcons with hcons | hrnil
  · refine ⟨hcomplete, ?_, ?_, ?_⟩
    · intro v hv w hw
      exact consistentGo_length c r c.vars [] hcons v hv w hw
    · intro x hx y hy i j wx wy hov hwx hwy
      have hychk := consistentGo_checkNb c r c.vars [] hcons x hx wx hwx
      have hynb : y ∈ neighbors c x :=
        mem_neighbors.mpr ⟨hy, Ne.symm (hwf.ne_of_overlaps hx hy hov),
          by rw [hov]; rfl⟩
      exact checkNeighbors_agree c r x wx (neighbors c x) hychk y hynb
        wy hwy i j hov
    · intro x hx y hy hne wx wy hwx hwy
      exact (consistentGo_unique c r c.vars [] hcons).2 x hx y hy hne
        wx wy hwx hwy
  · subst hrnil
    have hnil : c.vars = [] := by
      cases cv : c.vars with
      | nil => rfl
      | cons v rest =>
          have hv : v ∈ c.vars := by
            rw [cv]
            exact List.mem_cons_self _ _
          obtain ⟨w, hw⟩ := hcomplete v hv
          simp [lookupA] at hw
    rw [hnil]
    exact ⟨fun v hv => absurd hv (List.not_mem_nil _),
      fun v hv => absurd hv (List.not_mem_nil _),
      fun v hv => absurd hv (List.not_mem_nil _),
      fun v hv => absurd hv (List.not_mem_nil _)⟩

/-- Witness for C2: on the concrete puzzle `pSolve`, `solve` returns the
assignment `solvedA` and the theorem applies to it; in particular every
variable is assigned. -/
theorem C2_solve_sound_witness :
    (pSolve.WF ∧ solve pSolve = some solvedA) ∧
    (∀ v ∈ pSolve.vars, ∃ w, lookupA solvedA v = some w) :=
  ⟨⟨by decide, by decide⟩,
    (C2_solve_sound pSolve (by decide) solvedA (by decide)).1⟩

/-! Failure propagation: empty domains, and what `solve()` does with the
AC-3 boolean. -/

theorem backtrack_empty_domain (c : Puzzle) (d : Domains c)
    (hv : c.vars ≠ []) (he : ∃ v ∈ c.vars, d v = []) :
    backtrack c d [] = (none, []) := by
  have hcomp : assignmentComplete c [] = false := by
    cases cv : c.vars with
    | nil => exact absurd cv hv
    | cons v0 rest => simp [assignmentComplete, cv, lookupA]
  have hfilter : c.vars.filter (fun v => (lookupA [] v).isNone) = c.vars :=
    List.filter_eq_self.mpr (fun v _ => rfl)
  obtain ⟨v, hvmem, hvd⟩ := he
  cases cv : c.vars with
  | nil => exact absurd cv hv
  | cons v0 rest =>
      have hsel : selectUnassigned c d [] =
          some (rest.foldl (fun best u =>
            if (d u).length < (d best).length then u else best) v0) := by
        unfold selectUnassigned
        rw [hfilter, cv]
      have hmin : (d (rest.foldl (fun best u =>
          if (d u).length < (d best).length then u else best) v0)).length ≤
          (d v).length := by
        apply foldl_min_le
        rw [← cv]
        exact hvmem
      have hdsel : d (rest.foldl (fun best u =>
          if (d u).length < (d best).length then u else best) v0) = [] := by
        rw [hvd] at hmin
        exact List.length_eq_zero.mp (Nat.le_zero.mp hmin)
      have hord : orderDomainValues c d (rest.foldl (fun best u =>
          if (d u).length < (d best).length then u else best) v0) = [] := by
        unfold orderDomainValues
        rw [hdsel]
        rfl
      unfold backtrack
      simp only [backtrackGo, hcomp, Bool.false_eq_true, if_false, hsel,
        hord, tryValues]

/-- C9: if the puzzle has at least one variable and some variable's domain
is empty when `backtrack({})` starts, then `backtrack` returns failure
without assigning any variable. -/
theorem C9_backtrack_fails_on_empty_domain (c : Puzzle) (d : Domains c)
    (hv : c.vars ≠ []) (he : ∃ v ∈ c.vars, d v = []) :
    (backtrack c d []).1 = none ∧ (backtrack c d []).2 = [] := by
  rw [backtrack_empty_domain c d hv he]
  exact ⟨rfl, rfl⟩

/-- Witness for C9: on the concrete puzzle `pFail` with the emptied domain
store `dFail` the hypotheses hold, and `backtrack` fails with an empty
final assignment. -/
theorem C9_backtrack_fails_on_empty_domain_witness :
    (pFail.vars ≠ [] ∧ ∃ v ∈ pFail.vars, dFail v = []) ∧
    ((backtrack pFail dFail []).1 = none ∧
      (backtrack pFail dFail []).2 = []) :=
  ⟨⟨by decide, aOne, by decide, rfl⟩,
    C9_backtrack_fails_on_empty_domain pFail dFail (by decide)
      ⟨aOne, by decide, rfl⟩⟩

theorem checkNeighbors_total (c : Puzzle) (hwf : c.WF) (a : Assignment)
    (v : Slot) (hv : v ∈ c.vars) (w : Word) (hwlen : w.length = v.len)
    (hlen_all : ∀ u wu, u ∈ c.vars → lookupA a u = some wu →
      wu.length = u.len) :
    ∀ nbl : List Slot, (∀ nb ∈ nbl, nb ∈ neighbors c v) →
      ∃ b, checkNeighbors c a v w nbl = some b := by
  intro nbl
  induction nbl with
  | nil => exact fun _ => ⟨true, rfl⟩
  | cons nb0 rest ih =>
      intro hsub
      have hnb0 : nb0 ∈ neighbors c v := hsub nb0 (List.mem_cons_self _ _)
      obtain ⟨hnb0v, hnb0ne, hnb0ov⟩ := mem_neighbors.mp hnb0
      cases hl : lookupA a nb0 with
      | none =>
          obtain ⟨b, hb⟩ :=
            ih (fun nb hnb => hsub nb (List.mem_cons_of_mem _ hnb))
          refine ⟨b, ?_⟩
          simp only [checkNeighbors, hl]
          exact hb
      | some wnb0 =>
          obtain ⟨⟨i0, j0⟩, hov0⟩ := Option.isSome_iff_exists.mp hnb0ov
          have hrange := hwf.overlaps_lt hv hnb0v hov0
          have hr1 := hrange.1
          have hr2 := hrange.2
          cases hg1 : w.get? i0 with
          | none =>
              exfalso
              have hle := List.get?_eq_none.mp hg1
              omega
          | some ch1 =>
              have hwnb0len : wnb0.length = nb0.len :=
                hlen_all nb0 wnb0 hnb0v hl
              cases hg2 : wnb0.get? j0 with
              | none =>
                  exfalso
                  have hle := List.get?_eq_none.mp hg2
                  omega
              | some ch2 =>
                  obtain ⟨b, hb⟩ :=
                    ih (fun nb hnb => hsub nb (List.mem_cons_of_mem _ hnb))
                  by_cases hch : ch1 ≠ ch2
                  · refine ⟨false, ?_⟩
                    simp only [checkNeighbors, hl, hov0, hg1, hg2,
                      if_pos hch]
                  · refine ⟨b, ?_⟩
                    simp only [checkNeighbors, hl, hov0, hg1, hg2,
                      if_neg hch]
                    exact hb

theorem consistentGo_total (c : Puzzle) (hwf : c.WF) (a : Assignment)
    (hlen_all : ∀ u wu, u ∈ c.vars → lookupA a u = some wu →
      wu.length = u.len) :
    ∀ (l : List Slot) (seen : List Word), (∀ v ∈ l, v ∈ c.vars) →
      ∃ b, consistentGo c a l seen = some b := by
  intro l
  induction l with
  | nil => exact fun seen _ => ⟨true, rfl⟩
  | cons v0 rest ih =>
      intro seen hsub
      have hv0 : v0 ∈ c.vars := hsub v0 (List.mem_cons_self _ _)
      cases hl : lookupA a v0 with
      | none =>
          obtain ⟨b, hb⟩ :=
            ih seen (fun u hu => hsub u (List.mem_cons_of_mem _ hu))
          refine ⟨b, ?_⟩
          simp only [consistentGo, hl]
          exact hb
      | some w0 =>
          have hw0len : w0.length = v0.len := hlen_all v0 w0 hv0 hl
          obtain ⟨bc, hbc⟩ := checkNeighbors_total c hwf a v0 hv0 w0 hw0len
            hlen_all (neighbors c v0) (fun nb hnb => hnb)
          cases bc with
          | false =>
              refine ⟨false, ?_⟩
              simp only [consistentGo, hl, if_neg (not_not_intro hw0len),
                hbc]
          | true =>
              by_cases hseen : w0 ∈ seen
              · refine ⟨false, ?_⟩
                simp only [consistentGo, hl,
                  if_neg (not_not_intro hw0len), hbc, if_pos hseen]
              · obtain ⟨b, hb⟩ := ih (w0 :: seen)
                  (fun u hu => hsub u (List.mem_cons_of_mem _ hu))
                refine ⟨b, ?_⟩
                simp only [consistentGo, hl,
                  if_neg (not_not_intro hw0len), hbc, if_neg hseen]
                exact hb

/-- C10: on a well-formed puzzle, `consistent` never indexes a word out of
bounds when every assigned word is drawn from the node-consistent domains:
the check returns a boolean (`some b`) rather than an error (`none`). -/
theorem C10_consistent_no_index_error (c : Puzzle) (hwf : c.WF)
    (d : Domains c) (a : Assignment)
    (hw : ∀ p ∈ a, p.2 ∈ enforceNodeConsistency c d p.1) :
    ∃ b, consistent c a = some b := by
  have hlen_all : ∀ u wu, u ∈ c.vars → lookupA a u = some wu →
      wu.length = u.len := by
    intro u wu hu hlu
    have hmem : (u, wu) ∈ a := lookupA_mem hlu
    have hwu := hw (u, wu) hmem
    simp only [enforceNodeConsistency, if_pos hu] at hwu
    have hbeq := List.of_mem_filter hwu
    exact beq_iff_eq.mp hbeq
  exact consistentGo_total c hwf a hlen_all c.vars [] (fun v hv => hv)

/-- Witness for C10: the hypotheses hold for the solved assignment of the
concrete puzzle `pSolve`, and `consistent` returns a boolean on it. -/
theorem C10_consistent_no_index_error_witness :
    (pSolve.WF ∧
      (∀ p ∈ solvedA, p.2 ∈
        enforceNodeConsistency pSolve (initialDomains pSolve) p.1)) ∧
    ∃ b, consistent pSolve solvedA = some b :=
  ⟨⟨by decide, by decide⟩,
    C10_consistent_no_index_error pSolve (by decide)
      (initialDomains pSolve) solvedA (by decide)⟩

theorem defaultArcs_fst_mem {c : Puzzle} : ∀ p ∈ defaultArcs c,
    p.1 ∈ c.vars := by
  intro p hp
  obtain ⟨x, y⟩ := p
  exact (mem_defaultArcs.mp hp).1

/-- Counterexample for C1: on the concrete puzzle `pFail` the AC-3 run
inside `solve()` reports failure, yet the backtrack-invocation flag of the
traced solver is true — `solve()` does not short-circuit, it always calls
`backtrack({})`. -/
theorem C1_counterexample_backtrack_invoked :
    (∃ d2, ac3Default pFail
        (enforceNodeConsistency pFail (initialDomains pFail)) =
        some (false, d2)) ∧
    (solveTraced pFail).2 = true :=
  ⟨⟨_, rfl⟩, by decide⟩

/-- C1 (amended): `solve()` discards the boolean result of `ac3()` and
invokes `backtrack({})` unconditionally; when AC-3 reports failure (and
the puzzle has at least one variable), `backtrack` still returns failure
on the emptied domain store, so `solve()` returns "no solution" — but not
by short-circuiting. -/
theorem C1_solve_ignores_ac3_failure (c : Puzzle) (hv : c.vars ≠ [])
    (d2 : Domains c)
    (hfail : ac3Default c (enforceNodeConsistency c (initialDomains c)) =
      some (false, d2)) :
    (solveTraced c).2 = true ∧ solve c = none := by
  constructor
  · simp only [solveTraced, hfail]
  · simp only [solve, hfail]
    have hempty : ∃ x ∈ c.vars, d2 x = [] :=
      ac3Go_false_empty c _ _ _ _ defaultArcs_fst_mem hfail
    rw [backtrack_empty_domain c d2 hv hempty]

/-- Witness for C1's amended statement: on the concrete puzzle `pFail`
the hypotheses hold, backtrack is invoked, and `solve` returns none. -/
theorem C1_solve_ignores_ac3_failure_witness :
    pFail.vars ≠ [] ∧
    ((solveTraced pFail).2 = true ∧ solve pFail = none) :=
  ⟨by decide, C1_solve_ignores_ac3_failure pFail (by decide) _ rfl⟩

end CrosswordCSP
